import Mathlib

/-!
# Building Graph Explorer: verification of the graph model and its queries

Shallow embedding of the repository's core:

* `src/models.py`        — the `BuildingElement` record (`Element` below),
* `src/data_loader.py`   — `load_and_parse_data` validation (`validateElements`),
* `src/graph_service.py` — vertex/edge upserts and `build_graph_from_data`,
* `src/queries.py`       — `QueryEngine` traversals and aggregations.

The external ArangoDB store is modelled as an in-memory `Store`: a list of
vertex documents (keyed by `id`, as `upsert_vertex` sets `_key = element.id`)
and a list of edge documents (keyed by the `_key` string computed by
`upsert_edge`).  AQL traversal queries issued by the query engine are
modelled by direct scans of the edge list, returning the same documents the
query would.  Python dictionaries with a fixed key set are modelled as
association lists, sets as `List`/`Finset` with membership checks, and
`None`-able values as `Option`.
-/

set_option maxHeartbeats 1000000

namespace BuildingGraph

/-- A dynamically typed property value (the open-schema `properties` mapping
holds numbers such as `area_sqm` and strings such as `via_door`). -/
inductive PropValue where
  | num (n : Int)
  | str (s : String)
deriving DecidableEq, Repr

/-- `BuildingElement` from `src/models.py`: `id`, `type`, `name`, optional
`parent_id`, an open `properties` mapping, and the optional `connects` list
present on doors. -/
structure Element where
  id : String
  type : String
  name : String
  parent_id : Option String := none
  properties : List (String × PropValue) := []
  connects : Option (List String) := none
deriving DecidableEq, Repr

/-- An edge document of the `building_edges` collection.  In the source the
document stores `_from = "building_vertices/" ++ fromKey` and likewise for
`_to`; since the collection prefix is fixed we keep the bare vertex keys. -/
structure EdgeDoc where
  _key : String
  fromKey : String
  toKey : String
  relationship : String
  properties : List (String × PropValue) := []
deriving DecidableEq, Repr

/-- The graph store: the `building_vertices` and `building_edges`
collections. -/
structure Store where
  vertices : List Element := []
  edges : List EdgeDoc := []
deriving DecidableEq, Repr

/-- `self.vertices.has(id)`: does a vertex document with this key exist? -/
def hasVertex (s : Store) (id : String) : Bool :=
  s.vertices.any (fun v => v.id = id)

/-- `QueryEngine.get_element_by_id`: `self.gs.vertices.get(element_id)`. -/
def get_element_by_id (s : Store) (id : String) : Option Element :=
  s.vertices.find? (fun v => v.id = id)

/-- `GraphService.upsert_vertex`: insert or overwrite the document whose
`_key` is `element.id`. -/
def upsert_vertex (s : Store) (e : Element) : Store :=
  if s.vertices.any (fun v => v.id = e.id) then
    { s with vertices := s.vertices.map (fun v => if v.id = e.id then e else v) }
  else
    { s with vertices := s.vertices ++ [e] }

/-- Python's `str.replace("/", "_")`: since the pattern is a single
character this is a character-wise map. -/
def replaceSlash (s : String) : String :=
  ⟨s.data.map (fun c => if c = '/' then '_' else c)⟩

/-- The `_key` computed by `GraphService.upsert_edge`:
`f"{from_id}_{relationship}_{to_id}".replace("/", "_")`. -/
def edge_key (from_id relationship to_id : String) : String :=
  replaceSlash (from_id ++ "_" ++ relationship ++ "_" ++ to_id)

/-- `GraphService.upsert_edge`: build the edge document and insert it with
`overwrite=True` (replace any document with the same `_key`). -/
def upsert_edge (s : Store) (from_id to_id relationship : String)
    (properties : List (String × PropValue) := []) : Store :=
  let doc : EdgeDoc :=
    { _key := edge_key from_id relationship to_id
      fromKey := from_id
      toKey := to_id
      relationship := relationship
      properties := properties }
  if s.edges.any (fun e => e._key = doc._key) then
    { s with edges := s.edges.map (fun e => if e._key = doc._key then doc else e) }
  else
    { s with edges := s.edges ++ [doc] }

/-! ## Data loader (`src/data_loader.py`) -/

/-- The allow-list `ALLOWED_EXTERNAL_IDS = {"outside", "corridor"}`. -/
def ALLOWED_EXTERNAL_IDS : List String := ["outside", "corridor"]

/-- Python truthiness of an `Optional[str]`: `None` and `""` are falsy.
Conditions such as `if element.parent_id:` use this. -/
def strTruthy : Option String → Bool
  | none => false
  | some s => s ≠ ""

/-- The duplicate-id error message raised at step 4.1 of
`load_and_parse_data`. -/
def dupIdMsg : String := "Duplicate element IDs detected in input data."

/-- The dangling-parent error message raised at step 4.2. -/
def danglingParentMsg (parent_id id : String) : String :=
  "Invalid parent_id " ++ "'" ++ parent_id ++ "'" ++ " for element " ++
    "'" ++ id ++ "'" ++ "."

/-- The dangling-connection error message raised at step 4.3. -/
def danglingConnectionMsg (door_id target_id : String) : String :=
  "Door " ++ "'" ++ door_id ++ "'" ++ " connects to non-existent element " ++
    "'" ++ target_id ++ "'" ++ "."

/-- Step 4.2 of `load_and_parse_data` for one element: a truthy `parent_id`
must be a known id or an allowed external id. -/
def checkParent (all_ids : List String) (e : Element) : Except String Unit :=
  match e.parent_id with
  | none => .ok ()
  | some pid =>
    if pid = "" then .ok ()   -- `if element.parent_id:` is false for ""
    else if pid ∈ all_ids ∨ pid ∈ ALLOWED_EXTERNAL_IDS then .ok ()
    else .error (danglingParentMsg pid e.id)

/-- Step 4.3 of `load_and_parse_data` for one door: every truthy `connects`
entry must be a known id or an allowed external id.  (`if element.connects:`
is false for `None` and for the empty list.) -/
def checkConnects (all_ids : List String) (e : Element) : Except String Unit :=
  match e.connects with
  | none => .ok ()
  | some targets =>
    if e.type = "Door" ∧ targets ≠ [] then
      match targets.find? (fun t => ¬ (t ∈ all_ids ∨ t ∈ ALLOWED_EXTERNAL_IDS)) with
      | some t => .error (danglingConnectionMsg e.id t)
      | none => .ok ()
    else .ok ()

/-- Run a per-element check over the element list, stopping at the first
error (the Python `for` loops of steps 4.2 and 4.3). -/
def checkAll (check : Element → Except String Unit) :
    List Element → Except String Unit
  | [] => .ok ()
  | e :: rest => match check e with
    | .error m => .error m
    | .ok () => checkAll check rest

/-- Steps 4.1–4.3 of `load_and_parse_data`: validate the parsed element
list and return it unchanged, or fail with the first error raised.  The
duplicate check compares `len({e.id for e in elements})` with
`len(elements)`. -/
def validateElements (elements : List Element) : Except String (List Element) :=
  let all_ids := elements.map (fun e => e.id)
  if all_ids.dedup.length ≠ elements.length then .error dupIdMsg
  else match checkAll (checkParent all_ids) elements with
    | .error m => .error m
    | .ok () => match checkAll (checkConnects all_ids) elements with
      | .error m => .error m
      | .ok () => .ok elements

/-! ## Graph construction (`GraphService.build_graph_from_data`) -/

/-- Block 2.1 of `build_graph_from_data`: `PART_OF` and `CONTAINS`, guarded
by `if element.parent_id and self.vertices.has(element.parent_id)` (Python
truthiness: `None` and `""` are falsy). -/
def rulePartOf (element : Element) (acc : Store × Nat) : Store × Nat :=
  match element.parent_id with
  | some pid =>
    if pid ≠ "" ∧ hasVertex acc.1 pid then
      (upsert_edge (upsert_edge acc.1 element.id pid "PART_OF") pid element.id "CONTAINS",
        acc.2 + 2)
    else acc
  | none => acc

/-- Block 2.2: `HAS_OPENING` (Room → Door/Window), guarded by
`element.type in ["Door", "Window"] and element.parent_id` and then by
`self.vertices.has(element.parent_id)`. -/
def ruleOpening (element : Element) (acc : Store × Nat) : Store × Nat :=
  match element.parent_id with
  | some pid =>
    if (element.type = "Door" ∨ element.type = "Window") ∧ pid ≠ "" then
      if hasVertex acc.1 pid then
        (upsert_edge acc.1 pid element.id "HAS_OPENING", acc.2 + 1)
      else acc
    else acc
  | none => acc

/-- Block 2.3: `CONNECTS_TO` (Room ↔ Room via Door), guarded by
`element.type == "Door" and element.connects and len(element.connects) == 2`
and then by existence of both rooms.  `len(element.connects) == 2` only
holds for a two-element list, which is always truthy. -/
def ruleConnects (element : Element) (acc : Store × Nat) : Store × Nat :=
  match element.connects with
  | some [room_1, room_2] =>
    if element.type = "Door" ∧ hasVertex acc.1 room_1 ∧ hasVertex acc.1 room_2 then
      (upsert_edge
        (upsert_edge acc.1 room_1 room_2 "CONNECTS_TO" [("via_door", .str element.id)])
        room_2 room_1 "CONNECTS_TO" [("via_door", .str element.id)],
        acc.2 + 2)
    else acc
  | _ => acc

/-- One iteration of the phase-2 loop of `build_graph_from_data`: derive
the relationship edges of one element against the store, returning the
updated store and the incremented `edge_count`. -/
def deriveStep (acc : Store × Nat) (element : Element) : Store × Nat :=
  ruleConnects element (ruleOpening element (rulePartOf element acc))

/-- `GraphService.build_graph_from_data`: upsert all vertices, then derive
and upsert the relationship edges; returns the final store together with
the `{"vertices": ..., "edges": ...}` statistics. -/
def build_graph_from_data (s : Store) (elements : List Element) :
    Store × Nat × Nat :=
  let s := elements.foldl upsert_vertex s
  let vertex_count := elements.length
  let (s, edge_count) := elements.foldl deriveStep (s, 0)
  (s, vertex_count, edge_count)

/-- A derived relationship, as the triple of `upsert_edge` arguments
`(from_id, relationship, to_id)`. -/
abbrev EdgeOp := String × String × String

/-- The `(from, relationship, to)` arguments of the `upsert_edge` calls
block 2.1 issues for one element. -/
def opsPartOf (hasV : String → Bool) (element : Element) : List EdgeOp :=
  match element.parent_id with
  | some pid =>
    if pid ≠ "" ∧ hasV pid then
      [(element.id, "PART_OF", pid), (pid, "CONTAINS", element.id)]
    else []
  | none => []

/-- The `upsert_edge` arguments of block 2.2 for one element. -/
def opsOpening (hasV : String → Bool) (element : Element) : List EdgeOp :=
  match element.parent_id with
  | some pid =>
    if (element.type = "Door" ∨ element.type = "Window") ∧ pid ≠ "" ∧ hasV pid then
      [(pid, "HAS_OPENING", element.id)]
    else []
  | none => []

/-- The `upsert_edge` arguments of block 2.3 for one element. -/
def opsConnects (hasV : String → Bool) (element : Element) : List EdgeOp :=
  match element.connects with
  | some [room_1, room_2] =>
    if element.type = "Door" ∧ hasV room_1 ∧ hasV room_2 then
      [(room_1, "CONNECTS_TO", room_2), (room_2, "CONNECTS_TO", room_1)]
    else []
  | _ => []

/-- The sequence of `upsert_edge` calls the phase-2 loop issues for one
element, given the vertex-existence predicate.  During phase 2 the vertex
collection never changes (only edges are upserted), so this is a pure
function of the element and of the vertex set left by phase 1. -/
def elementOps (hasV : String → Bool) (element : Element) : List EdgeOp :=
  opsPartOf hasV element ++ opsOpening hasV element ++ opsConnects hasV element

/-- The full sequence of `upsert_edge` calls issued by phase 2 of
`build_graph_from_data` over the vertex set left by phase 1 on store `s`. -/
def buildEdgeOps (s : Store) (elements : List Element) : List EdgeOp :=
  elements.flatMap (elementOps (hasVertex (elements.foldl upsert_vertex s)))

theorem upsert_edge_vertices (s : Store) (a b r : String)
    (p : List (String × PropValue)) : (upsert_edge s a b r p).vertices = s.vertices := by
  unfold upsert_edge
  dsimp only
  split <;> rfl

theorem rulePartOf_vertices (e : Element) (acc : Store × Nat) :
    (rulePartOf e acc).1.vertices = acc.1.vertices := by
  unfold rulePartOf
  split
  · split <;> simp [upsert_edge_vertices]
  · rfl

theorem ruleOpening_vertices (e : Element) (acc : Store × Nat) :
    (ruleOpening e acc).1.vertices = acc.1.vertices := by
  unfold ruleOpening
  split
  · split
    · split <;> simp [upsert_edge_vertices]
    · rfl
  · rfl

theorem ruleConnects_vertices (e : Element) (acc : Store × Nat) :
    (ruleConnects e acc).1.vertices = acc.1.vertices := by
  unfold ruleConnects
  split
  · split <;> simp [upsert_edge_vertices]
  · rfl

theorem deriveStep_vertices (acc : Store × Nat) (e : Element) :
    (deriveStep acc e).1.vertices = acc.1.vertices := by
  unfold deriveStep
  rw [ruleConnects_vertices, ruleOpening_vertices, rulePartOf_vertices]

theorem hasVertex_deriveStep (acc : Store × Nat) (e : Element) (id : String) :
    hasVertex (deriveStep acc e).1 id = hasVertex acc.1 id := by
  unfold hasVertex
  rw [deriveStep_vertices]

theorem rulePartOf_count (e : Element) (acc : Store × Nat) :
    (rulePartOf e acc).2 = acc.2 + (opsPartOf (hasVertex acc.1) e).length := by
  unfold rulePartOf opsPartOf
  split
  · split <;> simp
  · simp

theorem ruleOpening_count (e : Element) (acc : Store × Nat) :
    (ruleOpening e acc).2 = acc.2 + (opsOpening (hasVertex acc.1) e).length := by
  unfold ruleOpening opsOpening
  split
  next pid hpid =>
    by_cases h1 : (e.type = "Door" ∨ e.type = "Window") ∧ pid ≠ ""
    · rw [if_pos h1]
      by_cases h2 : hasVertex acc.1 pid
      · rw [if_pos h2, if_pos ⟨h1.1, h1.2, h2⟩]
        simp
      · rw [if_neg h2, if_neg (fun h => h2 h.2.2)]
        simp
    · rw [if_neg h1, if_neg (fun h => h1 ⟨h.1, h.2.1⟩)]
      simp
  next => simp

theorem ruleConnects_count (e : Element) (acc : Store × Nat) :
    (ruleConnects e acc).2 = acc.2 + (opsConnects (hasVertex acc.1) e).length := by
  unfold ruleConnects opsConnects
  split
  · split <;> simp
  · simp

theorem rulePartOf_hasVertex (e : Element) (acc : Store × Nat) :
    hasVertex (rulePartOf e acc).1 = hasVertex acc.1 := by
  funext id
  unfold hasVertex
  rw [rulePartOf_vertices]

theorem ruleOpening_hasVertex (e : Element) (acc : Store × Nat) :
    hasVertex (ruleOpening e acc).1 = hasVertex acc.1 := by
  funext id
  unfold hasVertex
  rw [ruleOpening_vertices]

theorem deriveStep_count (acc : Store × Nat) (e : Element) :
    (deriveStep acc e).2 = acc.2 + (elementOps (hasVertex acc.1) e).length := by
  unfold deriveStep elementOps
  rw [ruleConnects_count, ruleOpening_count, rulePartOf_count,
    ruleOpening_hasVertex, rulePartOf_hasVertex]
  simp [List.length_append, Nat.add_assoc]

theorem foldl_deriveStep_count (elements : List Element) (acc : Store × Nat) :
    (elements.foldl deriveStep acc).2 =
      acc.2 + (elements.flatMap (elementOps (hasVertex acc.1))).length := by
  induction elements generalizing acc with
  | nil => simp
  | cons e rest ih =>
    simp only [List.foldl_cons, List.flatMap_cons, List.length_append]
    rw [ih (deriveStep acc e), deriveStep_count]
    have hv : hasVertex (deriveStep acc e).1 = hasVertex acc.1 := by
      funext id
      exact hasVertex_deriveStep acc e id
    rw [hv, Nat.add_assoc]

theorem foldl_deriveStep_vertices (elements : List Element) (acc : Store × Nat) :
    (elements.foldl deriveStep acc).1.vertices = acc.1.vertices := by
  induction elements generalizing acc with
  | nil => rfl
  | cons e rest ih =>
    simp only [List.foldl_cons]
    rw [ih (deriveStep acc e), deriveStep_vertices]

/-- The edge count reported by `build_graph_from_data` is the length of the
sequence of `upsert_edge` calls it issues. -/
theorem build_edge_count (s : Store) (elements : List Element) :
    (build_graph_from_data s elements).2.2 = (buildEdgeOps s elements).length := by
  unfold build_graph_from_data buildEdgeOps
  simp only
  rw [foldl_deriveStep_count]
  simp

/-! ## Query engine (`src/queries.py`) -/

/-- `QueryEngine.get_children`: the AQL query
`FOR v, e IN 1..1 OUTBOUND @start building_edges
 FILTER e.relationship == "CONTAINS" RETURN v` —
scan the edge collection for outbound `CONTAINS` edges of `element_id` and
return the target vertex documents, in edge-collection order. -/
def get_children (s : Store) (element_id : String) : List Element :=
  s.edges.filterMap fun e =>
    if e.fromKey = element_id ∧ e.relationship = "CONTAINS" then
      get_element_by_id s e.toKey
    else none

/-- The guard `max_depth is not None and depth > max_depth` of
`QueryEngine.get_descendants`. -/
def tooDeep (max_depth : Option Nat) (depth : Nat) : Bool :=
  match max_depth with
  | some m => m < depth
  | none => false

/-- The state transformer of one iteration of the `while stack:` loop of
`QueryEngine.get_descendants`.  The Python stack pops from the end of the
list; we keep the top of the stack at the head, so pushing the children
list appends its reverse.  The `visited` set is modelled as a list with
membership testing, and `pops` instruments the trace of `(current_id,
depth)` pairs popped from the stack.  Fuel gives a structural termination
measure; an exhausted-fuel run returns the state reached so far. -/
def descendLoop (s : Store) (element_id : String) (max_depth : Option Nat) :
    Nat → List (String × Nat) → List String → List Element →
    List (String × Nat) → List Element × List String × List (String × Nat)
  | _, [], visited, descendants, pops => (descendants, visited, pops)
  | 0, _, visited, descendants, pops => (descendants, visited, pops)
  | fuel + 1, (current_id, depth) :: rest, visited, descendants, pops =>
    let pops := pops ++ [(current_id, depth)]
    if current_id ∈ visited then
      descendLoop s element_id max_depth fuel rest visited descendants pops
    else if tooDeep max_depth depth then
      descendLoop s element_id max_depth fuel rest visited descendants pops
    else
      let visited := visited ++ [current_id]
      let descendants :=
        if current_id ≠ element_id then
          match get_element_by_id s current_id with
          | some node => descendants ++ [node]
          | none => descendants
        else descendants
      let children := get_children s current_id
      let stack := (children.map (fun c => (c.id, depth + 1))).reverse ++ rest
      descendLoop s element_id max_depth fuel stack visited descendants pops

/-- Fuel bound for the DFS: each iteration either shrinks the stack or
visits a new vertex, each visit pushes at most `edges.length` entries, and
at most `edges.length + 1` distinct keys can ever be visited. -/
def descendFuel (s : Store) : Nat :=
  (s.edges.length + 2) * (s.edges.length + 2)

/-- `QueryEngine.get_descendants` (instrumented): DFS with an explicit
stack seeded with `(element_id, 0)`, returning the final
`(descendants, visited, pops)` state of the loop. -/
def descendRun (s : Store) (element_id : String) (max_depth : Option Nat) :
    List Element × List String × List (String × Nat) :=
  descendLoop s element_id max_depth (descendFuel s) [(element_id, 0)] [] [] []

/-- `QueryEngine.get_descendants`: the `descendants` list returned by the
DFS loop. -/
def get_descendants (s : Store) (element_id : String)
    (max_depth : Option Nat := none) : List Element :=
  (descendRun s element_id max_depth).1

/-- The outbound `PART_OF` neighbor keys of a vertex, in edge-collection
order. -/
def partOfNeighbors (s : Store) (v : String) : List String :=
  s.edges.filterMap fun e =>
    if e.fromKey = v ∧ e.relationship = "PART_OF" then some e.toKey else none

/-- The outbound steps available from a vertex, over ALL edges regardless
of relationship: `(target key, relationship of the edge used)`, in
edge-collection order. -/
def outboundStep (s : Store) (v : String) : List (String × String) :=
  s.edges.filterMap fun e =>
    if e.fromKey = v then some (e.toKey, e.relationship) else none

/-- One BFS level's worth of newly reached vertices under global vertex
uniqueness: of the `(key, relationship)` pairs reached from the frontier,
keep the first pair for each not-yet-visited key.  (When a vertex is
reachable at the same depth through several edges the AQL engine keeps an
unspecified one; this model keeps the first in frontier-then-edge order —
the theorems below evaluate only stores where each vertex is reached by a
single edge, so the choice does not matter there.) -/
def dedupReached (visited : List String) (reached : List (String × String)) :
    List (String × String) :=
  reached.foldl
    (fun acc kr => if kr.1 ∈ visited ++ acc.map Prod.fst then acc else acc ++ [kr])
    []

/-- The AQL traversal issued by `QueryEngine.get_ancestors`:
`FOR v, e, p IN 1..5 OUTBOUND start building_edges OPTIONS
{uniqueVertices: global, bfs: true} FILTER e.relationship == PART_OF
SORT LENGTH(p.edges) ASC RETURN v._key` (the source returns `v`; keys are
mapped to documents in `get_ancestors`).  The traversal walks ALL outbound
edges up to 5 hops with global vertex uniqueness (the start vertex counts
as visited); the `FILTER` applies only to `e`, the LAST edge of each
emitted path — it does not restrict which edges are walked.  Emission is
by increasing depth (the `SORT` on path length), each level in reach
order. -/
def ancestorsBFS (s : Store) :
    Nat → List String → List String → List String
  | 0, _, _ => []
  | depth + 1, frontier, visited =>
    let fresh := dedupReached visited (frontier.flatMap (outboundStep s))
    (fresh.filterMap fun kr => if kr.2 = "PART_OF" then some kr.1 else none) ++
      ancestorsBFS s depth (fresh.map Prod.fst) (visited ++ fresh.map Prod.fst)

/-- `QueryEngine.get_ancestors`: the 1..5 OUTBOUND all-edges traversal with
the last-edge `PART_OF` filter, returning vertex documents. -/
def get_ancestors (s : Store) (element_id : String) : List Element :=
  (ancestorsBFS s 5 [element_id] [element_id]).filterMap (get_element_by_id s)

/-- The neighbor keys returned by the AQL query issued inside
`QueryEngine.find_path`:
`FOR v, e IN 1..1 ANY @start building_edges RETURN v._key` —
any relationship kind, either direction. -/
def anyNeighbors (s : Store) (v : String) : List String :=
  s.edges.filterMap fun e =>
    if e.fromKey = v then some e.toKey
    else if e.toKey = v then some e.fromKey
    else none

/-- One BFS expansion of `QueryEngine.find_path`:
`for neighbor_id in cursor: if neighbor_id not in visited:
 visited.add(neighbor_id); queue.append(path + [neighbor_id])`.
Paths are kept reversed (current vertex at the head); extending appends at
the back of the queue. -/
def bfsExpand (path : List String) (ns : List String)
    (acc : List (List String) × Finset String) : List (List String) × Finset String :=
  ns.foldl
    (fun acc n =>
      if n ∈ acc.2 then acc else (acc.1 ++ [n :: path], insert n acc.2))
    acc

/-- The `while queue:` loop of `QueryEngine.find_path`, instrumented with
the count of AQL neighbor queries issued.  Returns `none` on fuel
exhaustion (which `findPath_fuel_sufficient` rules out for the fuel used),
`some ([], q)` when the queue empties with no path found, and
`some (path, q)` (reversed path, current vertex first) when the endpoint is
reached. -/
def findPathLoop (s : Store) (to_id : String) :
    Nat → List (List String) → Finset String → Nat →
    Option (List String × Nat)
  | 0, _, _, _ => none
  | _ + 1, [], _, queries => some ([], queries)
  | fuel + 1, path :: rest, visited, queries =>
    match path with
    | [] => some ([], queries)   -- queued paths are nonempty by construction
    | current_id :: _ =>
      if current_id = to_id then some (path, queries)
      else
        let (queue, visited) := bfsExpand path (anyNeighbors s current_id) (rest, visited)
        findPathLoop s to_id fuel queue visited (queries + 1)

/-- Fuel bound for the BFS: each iteration pops one path, and a path is
pushed only when a new vertex is marked visited, so the number of
iterations is bounded by one more than the number of keys that can ever be
visited (`from_id` plus both endpoints of every edge). -/
def findPathFuel (s : Store) : Nat := 2 * s.edges.length + 2

/-- `QueryEngine.find_path` (instrumented): the id path found (in forward
order, empty when there is no path) together with the number of AQL
neighbor queries issued. -/
def findPathIds (s : Store) (from_id to_id : String) : List String × Nat :=
  match findPathLoop s to_id (findPathFuel s) [[from_id]] {from_id} 0 with
  | some (revPath, queries) => (revPath.reverse, queries)
  | none => ([], 0)

/-- `QueryEngine.find_path`: the vertex documents along the found path
(`[self.get_element_by_id(node_id) for node_id in path]`; a missing
document yields Python's `None`), with the query count. -/
def find_path (s : Store) (from_id to_id : String) :
    List (Option Element) × Nat :=
  let (ids, queries) := findPathIds s from_id to_id
  (ids.map (get_element_by_id s), queries)

/-! ## Aggregation (`QueryEngine.get_element_statistics`) -/

/-- `element.get("properties", {}).get("area_sqm", 0)`: vertex documents
written by `upsert_vertex` always carry the `properties` field, so this is
a lookup in the element's `properties` mapping, defaulting to `0` when the
key is absent.  A non-numeric value would make the Python `+=` raise; the
model is used only where the value is numeric or absent (see
`areaNumericOk`). -/
def getAreaSqm (e : Element) : Int :=
  match (e.properties.lookup "area_sqm") with
  | some (.num n) => n
  | some (.str _) => 0
  | none => 0

/-- The element's `area_sqm` property is absent or numeric, so that the
Python `stats["total_area_sqm"] += ...` does not raise a `TypeError`. -/
def areaNumericOk (e : Element) : Prop :=
  match (e.properties.lookup "area_sqm") with
  | some (.str _) => False
  | _ => True

instance (e : Element) : Decidable (areaNumericOk e) := by
  unfold areaNumericOk
  split <;> infer_instance

/-- `stats[key] += delta` on the statistics dictionary, modelled as an
association list with a fixed key set. -/
def bumpBy (key : String) (delta : Int) (st : List (String × Int)) :
    List (String × Int) :=
  st.map (fun kv => if kv.1 = key then (kv.1, kv.2 + delta) else kv)

/-- The initial `stats` dictionary of `get_element_statistics`. -/
def initStats : List (String × Int) :=
  [("Floor", 0), ("Room", 0), ("Door", 0), ("Window", 0), ("total_area_sqm", 0)]

/-- One iteration of the `for element in descendants:` loop of
`get_element_statistics`: `if element_type in stats: stats[element_type] += 1`
(note the membership test is against the whole key set of `stats`,
including `"total_area_sqm"`), then the Floor area accumulation. -/
def statsStep (st : List (String × Int)) (element : Element) : List (String × Int) :=
  let st := if st.any (fun kv => kv.1 = element.type) then bumpBy element.type 1 st else st
  if element.type = "Floor" then bumpBy "total_area_sqm" (getAreaSqm element) st else st

/-- The fold of `get_element_statistics` over a descendants list. -/
def statsFold (descendants : List Element) : List (String × Int) :=
  descendants.foldl statsStep initStats

/-- `QueryEngine.get_element_statistics`: fold the unbounded-depth
descendants of the building into the statistics dictionary. -/
def get_element_statistics (s : Store) (building_id : String) :
    List (String × Int) :=
  statsFold (get_descendants s building_id none)

/-! ## Concrete stores used as test inputs -/

/-- A building vertex `A`. -/
def bldA : Element := { id := "A", type := "Building", name := "A" }

/-- A floor vertex `B`. -/
def flrB : Element := { id := "B", type := "Floor", name := "B" }

/-- A two-vertex store where `A` CONTAINS `B`. -/
def storeAB : Store :=
  { vertices := [bldA, flrB]
    edges := [{ _key := "A_CONTAINS_B", fromKey := "A", toKey := "B",
                relationship := "CONTAINS" }] }

/-- A room vertex with the given id. -/
def room (i : String) : Element := { id := i, type := "Room", name := i }

/-- A three-room store `a — b — c` connected by `CONNECTS_TO` edges. -/
def storeChain : Store :=
  { vertices := [room "a", room "b", room "c"]
    edges := [{ _key := "k1", fromKey := "a", toKey := "b", relationship := "CONNECTS_TO" },
              { _key := "k2", fromKey := "b", toKey := "c", relationship := "CONNECTS_TO" }] }

/-- A three-vertex store with the `PART_OF` chain `a → b → c`. -/
def storeParents : Store :=
  { vertices := [room "a", room "b", room "c"]
    edges := [{ _key := "p1", fromKey := "a", toKey := "b", relationship := "PART_OF" },
              { _key := "p2", fromKey := "b", toKey := "c", relationship := "PART_OF" }] }

/-! ## C10: the edge `_key` encoding is not injective -/

/-- One edge store state obtained by upserting two edges whose distinct
`(from, kind, to)` triples share the `_key`
`"x_PART_OF_y_PART_OF_z"`. -/
def collidedStore : Store :=
  upsert_edge (upsert_edge {} "x" "y_PART_OF_z" "PART_OF") "x_PART_OF_y" "z" "PART_OF"

/-- C10: the stored edge key is
`(from_id ++ "_" ++ relationship ++ "_" ++ to_id).replace("/", "_")`, and
this encoding is not injective: the distinct triples
`("x", PART_OF, "y_PART_OF_z")` and `("x_PART_OF_y", PART_OF, "z")` (ids
containing underscores) produce the same key, so upserting the second edge
overwrites the first: the store ends up with a single edge document
carrying the second triple's endpoints. -/
theorem edge_key_not_injective :
    ("x", "PART_OF", "y_PART_OF_z") ≠ (("x_PART_OF_y", "PART_OF", "z") : EdgeOp) ∧
    edge_key "x" "PART_OF" "y_PART_OF_z" = edge_key "x_PART_OF_y" "PART_OF" "z" ∧
    collidedStore.edges =
      [{ _key := "x_PART_OF_y_PART_OF_z", fromKey := "x_PART_OF_y", toKey := "z",
         relationship := "PART_OF" }] := by
  refine ⟨by decide, by decide, by decide⟩

/-! ## C2: `get_descendants` with `max_depth = 0` -/

theorem descendLoop_all_deep (s : Store) (root : String) (fuel : Nat)
    (stack : List (String × Nat)) (visited : List String)
    (acc : List Element) (pops : List (String × Nat))
    (h : ∀ e ∈ stack, 0 < e.2) :
    (descendLoop s root (some 0) fuel stack visited acc pops).1 = acc := by
  induction fuel generalizing stack visited pops with
  | zero => cases stack <;> rfl
  | succ fuel ih =>
    match stack with
    | [] => rfl
    | (c, d) :: rest =>
      have hd : 0 < d := h (c, d) (List.mem_cons_self _ _)
      have hrest : ∀ e ∈ rest, 0 < e.2 := fun e he => h e (List.mem_cons_of_mem _ he)
      simp only [descendLoop]
      by_cases hv : c ∈ visited
      · rw [if_pos hv]
        exact ih rest visited _ hrest
      · rw [if_neg hv, if_pos (by simp [tooDeep]; omega)]
        exact ih rest visited _ hrest

/-- C2 (amended): for every store and element id,
`get_descendants(id, maxDepth=0)` is the empty sequence — the root is
popped at depth 0 and its children are pushed at depth 1, and every node
popped at depth `> 0` is skipped by the `depth > max_depth` guard, so
nothing is ever emitted. -/
theorem get_descendants_depth_zero (s : Store) (id : String) :
    get_descendants s id (some 0) = [] := by
  unfold get_descendants descendRun
  have hf : descendFuel s = (descendFuel s - 1) + 1 := by
    have h2 : s.edges.length + 2 ≤ descendFuel s := by
      unfold descendFuel
      nlinarith [Nat.zero_le s.edges.length]
    omega
  rw [hf]
  simp only [descendLoop, List.not_mem_nil, if_false, tooDeep,
    decide_eq_true_eq, Nat.lt_irrefl, ne_eq, not_true_eq_false]
  exact descendLoop_all_deep s id _ _ _ _ _ (by
    intro e he
    simp only [List.append_nil, List.mem_reverse, List.mem_map] at he
    obtain ⟨c, _, rfl⟩ := he
    omega)

/-- C2 (counterexample): on the store where `A` CONTAINS `B`,
`get_descendants("A", maxDepth=0)` returns `[]` while `get_children("A")`
returns `[B]`, so the claimed identity
`descendants(id, maxDepth=0) = children(id)` fails. -/
theorem descendants_zero_ne_children :
    get_descendants storeAB "A" (some 0) = [] ∧
    get_children storeAB "A" = [flrB] := by
  refine ⟨by decide, by decide⟩

/-! ## C1: nodes popped beyond `max_depth` and the visited set -/

/-- C1 (amended): in the `get_descendants` loop, a node popped from the
stack whose depth exceeds the set `maxDepth` is skipped entirely: it is
excluded from the result at that pop, none of its children are pushed, and
it is NOT added to the visited set — the loop continues on the remaining
stack with the visited set, result and pending stack unchanged (so the same
node can be processed again if reached at a smaller depth). -/
theorem descendLoop_deep_skip (s : Store) (root : String) (m fuel : Nat)
    (c : String) (d : Nat) (rest : List (String × Nat))
    (visited : List String) (acc : List Element) (pops : List (String × Nat))
    (hv : c ∉ visited) (hd : m < d) :
    descendLoop s root (some m) (fuel + 1) ((c, d) :: rest) visited acc pops =
      descendLoop s root (some m) fuel rest visited acc (pops ++ [(c, d)]) := by
  simp only [descendLoop]
  rw [if_neg hv, if_pos (by simp [tooDeep]; omega)]

/-- C1 (witness for the amended claim): a concrete instance of the skip
step, on the `A` CONTAINS `B` store with `maxDepth = 0`. -/
theorem descendLoop_deep_skip_witness :
    ("B" ∉ ["A"] ∧ 0 < 1) ∧
    descendLoop storeAB "A" (some 0) 4 [("B", 1)] ["A"] [] [("A", 0)] =
      descendLoop storeAB "A" (some 0) 3 [] ["A"] [] [("A", 0), ("B", 1)] :=
  ⟨⟨by decide, by decide⟩,
    descendLoop_deep_skip storeAB "A" 0 3 "B" 1 [] ["A"] [] [("A", 0)]
      (by decide) (by decide)⟩

/-- C1 (counterexample): on the store where `A` CONTAINS `B`, running
`get_descendants("A", maxDepth=0)` pops `("B", 1)` with depth `1 > 0`, yet
the final visited set is `["A"]` only — contrary to the claim, the
too-deep node is not added to the visited set. -/
theorem deep_node_not_visited :
    ("B", 1) ∈ (descendRun storeAB "A" (some 0)).2.2 ∧
    (0 : Nat) < 1 ∧
    "B" ∉ (descendRun storeAB "A" (some 0)).2.1 := by
  refine ⟨by decide, by decide, by decide⟩

/-! ## C4: the duplicate-id error and atomicity -/

/-- Does `needle` occur at the start of `hay`? -/
def isPrefixCheck : List Char → List Char → Bool
  | [], _ => true
  | _ :: _, [] => false
  | a :: as, b :: bs => a = b && isPrefixCheck as bs

/-- Does `needle` occur as a contiguous substring of `hay`?  An error
message "names" an id exactly when the id occurs in it as a substring. -/
def substringCheck (needle : List Char) : List Char → Bool
  | [] => isPrefixCheck needle []
  | c :: rest' => isPrefixCheck needle (c :: rest') || substringCheck needle rest'

/-- Two distinct raw elements sharing the id `"zz9"`. -/
def dupElems : List Element :=
  [{ id := "zz9", type := "Room", name := "first" },
   { id := "zz9", type := "Room", name := "second" }]

/-- C4 (counterexample): validating an element set with the duplicated id
`"zz9"` fails, but the error message is the fixed string
`"Duplicate element IDs detected in input data."`, which does not contain
the duplicated id — the error does not name the first duplicate
detected. -/
theorem duplicate_error_does_not_name_id :
    validateElements dupElems = .error dupIdMsg ∧
    substringCheck "zz9".data dupIdMsg.data = false := by
  refine ⟨by rfl, by decide⟩

/-- C4 (amended): ingesting a raw element set containing two elements with
the same id fails with the duplicate-id `ValueError`, whose message is a
fixed generic string that does not name the duplicate; the validation
returns an error and no element set, so no elements are registered (no
partial success). -/
theorem validate_duplicate_ids (elements : List Element)
    (hdup : ¬ (elements.map Element.id).Nodup) :
    validateElements elements = .error dupIdMsg := by
  unfold validateElements
  rw [if_pos]
  intro hlen
  apply hdup
  have hsub : (elements.map Element.id).dedup.Sublist (elements.map Element.id) :=
    List.dedup_sublist _
  have : (elements.map Element.id).dedup = elements.map Element.id :=
    hsub.eq_of_length (by simpa using hlen)
  rw [← this]
  exact List.nodup_dedup _

/-- C4 (witness): the duplicate set `dupElems` is rejected with the
generic message. -/
theorem validate_duplicate_ids_witness :
    ¬ (dupElems.map Element.id).Nodup ∧
    validateElements dupElems = .error dupIdMsg :=
  ⟨by decide, validate_duplicate_ids dupElems (by decide)⟩

/-! ## C5: `find_path` with equal endpoints -/

/-- C5: when `from_id = to_id = x` and `x` exists, `find_path` returns the
single-element path `[x]` from the first pop of the initial queue, issuing
zero AQL traversal queries to the store (the second component counts the
`db.aql.execute` calls of the loop; the single `vertices.get` used to
materialize the returned document is a collection lookup, not a query). -/
theorem find_path_same_endpoints (s : Store) (x : String) (el : Element)
    (hx : get_element_by_id s x = some el) :
    find_path s x x = ([some el], 0) := by
  unfold find_path findPathIds
  have hf : findPathFuel s = (2 * s.edges.length + 1) + 1 := by
    unfold findPathFuel
    omega
  rw [hf]
  simp [findPathLoop, hx]

/-- C5 (witness): on the three-room chain store, `find_path("a", "a")`
returns the room document for `"a"` with zero queries issued. -/
theorem find_path_same_endpoints_witness :
    get_element_by_id storeChain "a" = some (room "a") ∧
    find_path storeChain "a" "a" = ([some (room "a")], 0) :=
  ⟨by decide, find_path_same_endpoints storeChain "a" (room "a") (by decide)⟩

/-! ## C3: the derived edge counts -/

/-- The element has a truthy `parent_id` that resolves to a vertex (Python
treats `None` and `""` as "no parent"). -/
def hasResolvableParent (hasV : String → Bool) (e : Element) : Bool :=
  match e.parent_id with
  | some pid => pid ≠ "" && hasV pid
  | none => false

/-- The element is a Door or Window with a resolvable parent. -/
def openingWithResolvableParent (hasV : String → Bool) (e : Element) : Bool :=
  (e.type = "Door" || e.type = "Window") && hasResolvableParent hasV e

/-- The element is a Door whose `connects` is a two-element list with both
targets resolving to vertices. -/
def doorWithTwoResolvableConnects (hasV : String → Bool) (e : Element) : Bool :=
  match e.connects with
  | some [room_1, room_2] => e.type = "Door" && hasV room_1 && hasV room_2
  | _ => false

theorem hasVertex_upsert (s : Store) (e : Element) (id : String) :
    hasVertex (upsert_vertex s e) id = (hasVertex s id || id = e.id) := by
  unfold hasVertex upsert_vertex
  by_cases hmem : s.vertices.any (fun v => v.id = e.id)
  · rw [if_pos hmem]
    rw [Bool.eq_iff_iff]
    simp only [List.any_map, Function.comp_def, List.any_eq_true, Bool.or_eq_true,
      decide_eq_true_eq]
    obtain ⟨w, hw, hwid⟩ :
        ∃ v ∈ s.vertices, v.id = e.id := by simpa using hmem
    constructor
    · rintro ⟨v, hv, hvid⟩
      by_cases hve : v.id = e.id
      · rw [if_pos hve] at hvid
        exact Or.inr hvid.symm
      · rw [if_neg hve] at hvid
        exact Or.inl ⟨v, hv, hvid⟩
    · rintro (⟨v, hv, hvid⟩ | hid)
      · by_cases hve : v.id = e.id
        · refine ⟨w, hw, ?_⟩
          rw [if_pos hwid, ← hvid, hve]
        · exact ⟨v, hv, by rw [if_neg hve]; exact hvid⟩
      · refine ⟨w, hw, ?_⟩
        rw [if_pos hwid]
        exact hid.symm
  · rw [if_neg hmem]
    rw [Bool.eq_iff_iff]
    simp only [List.any_append, List.any_cons, List.any_nil, Bool.or_false,
      Bool.or_eq_true, List.any_eq_true, decide_eq_true_eq]
    constructor
    · rintro (h | h)
      · exact Or.inl h
      · exact Or.inr h.symm
    · rintro (h | h)
      · exact Or.inl h
      · exact Or.inr h.symm

theorem hasVertex_foldl_upsert (elements : List Element) (s : Store) (id : String) :
    hasVertex (elements.foldl upsert_vertex s) id =
      (hasVertex s id || elements.any (fun e => id = e.id)) := by
  induction elements generalizing s with
  | nil => simp
  | cons e rest ih =>
    simp only [List.foldl_cons, List.any_cons]
    rw [ih, hasVertex_upsert, Bool.or_assoc]

/-- On a store built from the empty store, a vertex exists exactly when
some ingested element carries that id. -/
theorem hasVertex_built (elements : List Element) (id : String) :
    hasVertex (elements.foldl upsert_vertex {}) id =
      elements.any (fun e => id = e.id) := by
  rw [hasVertex_foldl_upsert]
  rfl

theorem opsPartOf_count (hasV : String → Bool) (e : Element) :
    ((opsPartOf hasV e).filter (fun op => op.2.1 = "PART_OF")).length =
      if hasResolvableParent hasV e then 1 else 0 := by
  unfold opsPartOf hasResolvableParent
  split
  · split
    next h => simp [List.filter, h]
    next h => simp [h]
  · simp

theorem opsPartOf_count_contains (hasV : String → Bool) (e : Element) :
    ((opsPartOf hasV e).filter (fun op => op.2.1 = "CONTAINS")).length =
      if hasResolvableParent hasV e then 1 else 0 := by
  unfold opsPartOf hasResolvableParent
  split
  · split
    next h => simp [List.filter, h]
    next h => simp [h]
  · simp

theorem opsOpening_count (hasV : String → Bool) (e : Element) :
    ((opsOpening hasV e).filter (fun op => op.2.1 = "HAS_OPENING")).length =
      if openingWithResolvableParent hasV e then 1 else 0 := by
  unfold opsOpening
  split
  next pid hpid =>
    have hb : (openingWithResolvableParent hasV e = true) ↔
        ((e.type = "Door" ∨ e.type = "Window") ∧ pid ≠ "" ∧ hasV pid = true) := by
      simp [openingWithResolvableParent, hasResolvableParent, hpid, and_assoc]
    by_cases h : (e.type = "Door" ∨ e.type = "Window") ∧ pid ≠ "" ∧ hasV pid = true
    · rw [if_pos h, if_pos (hb.mpr h)]
      simp [List.filter]
    · rw [if_neg h, if_neg (fun hc => h (hb.mp hc))]
      simp
  next =>
    have hb : openingWithResolvableParent hasV e = false := by
      simp only [openingWithResolvableParent, hasResolvableParent]
      split
      next heq => simp_all
      next => simp
    simp [hb]

theorem opsConnects_count (hasV : String → Bool) (e : Element) :
    ((opsConnects hasV e).filter (fun op => op.2.1 = "CONNECTS_TO")).length =
      if doorWithTwoResolvableConnects hasV e then 2 else 0 := by
  unfold opsConnects doorWithTwoResolvableConnects
  split
  next r1 r2 heq =>
    by_cases h : e.type = "Door" ∧ hasV r1 ∧ hasV r2
    · rw [if_pos h, if_pos (by simp [h.1, h.2.1, h.2.2])]
      simp [List.filter]
    · rw [if_neg h, if_neg (by
        simp only [Bool.and_eq_true, decide_eq_true_eq, Bool.not_eq_true]
        intro hc
        exact h ⟨hc.1.1, hc.1.2, hc.2⟩)]
      simp
  next => simp

/-- No block ever emits an op tagged with another block's relationship. -/
theorem opsPartOf_no_other (hasV : String → Bool) (e : Element) (r : String)
    (hr : r ≠ "PART_OF" ∧ r ≠ "CONTAINS") :
    (opsPartOf hasV e).filter (fun op => op.2.1 = r) = [] := by
  unfold opsPartOf
  split
  · split
    · simp [List.filter, hr.1, hr.2, Ne.symm]
    · simp
  · simp

theorem opsOpening_no_other (hasV : String → Bool) (e : Element) (r : String)
    (hr : r ≠ "HAS_OPENING") :
    (opsOpening hasV e).filter (fun op => op.2.1 = r) = [] := by
  unfold opsOpening
  split
  · split
    · simp [List.filter, hr, Ne.symm]
    · simp
  · simp

theorem opsConnects_no_other (hasV : String → Bool) (e : Element) (r : String)
    (hr : r ≠ "CONNECTS_TO") :
    (opsConnects hasV e).filter (fun op => op.2.1 = r) = [] := by
  unfold opsConnects
  split
  · split
    · simp [List.filter, hr, Ne.symm]
    · simp
  · simp

theorem flatMap_filter_count (f : Element → List EdgeOp)
    (p : EdgeOp → Bool) (count : Element → Nat)
    (h : ∀ e, ((f e).filter p).length = count e) (elements : List Element) :
    ((elements.flatMap f).filter p).length = (elements.map count).sum := by
  induction elements with
  | nil => rfl
  | cons e rest ih =>
    simp only [List.flatMap_cons, List.filter_append, List.length_append,
      List.map_cons, List.sum_cons, ih, h e]

theorem sum_ite_count (p : Element → Bool) (k : Nat) (elements : List Element) :
    (elements.map (fun e => if p e then k else 0)).sum =
      k * (elements.filter p).length := by
  induction elements with
  | nil => simp
  | cons e rest ih =>
    by_cases h : p e
    · simp [h, ih, Nat.mul_add, Nat.add_comm]
    · simp [h, ih]

theorem flatMap_length (f : Element → List EdgeOp) (count : Element → Nat)
    (h : ∀ e, (f e).length = count e) (elements : List Element) :
    (elements.flatMap f).length = (elements.map count).sum := by
  induction elements with
  | nil => rfl
  | cons e rest ih =>
    simp only [List.flatMap_cons, List.length_append, List.map_cons,
      List.sum_cons, ih, h e]

theorem sum_map_add3 (f g h : Element → Nat) (l : List Element) :
    (l.map (fun e => f e + g e + h e)).sum =
      (l.map f).sum + (l.map g).sum + (l.map h).sum := by
  induction l with
  | nil => rfl
  | cons e rest ih =>
    simp only [List.map_cons, List.sum_cons, ih]
    omega

theorem opsPartOf_length (hasV : String → Bool) (e : Element) :
    (opsPartOf hasV e).length = if hasResolvableParent hasV e then 2 else 0 := by
  unfold opsPartOf hasResolvableParent
  split
  · split
    next h => simp [h]
    next h => simp [h]
  · simp

theorem opsOpening_length (hasV : String → Bool) (e : Element) :
    (opsOpening hasV e).length =
      if openingWithResolvableParent hasV e then 1 else 0 := by
  rw [show (opsOpening hasV e).length =
      ((opsOpening hasV e).filter (fun op => op.2.1 = "HAS_OPENING")).length from ?_]
  · exact opsOpening_count hasV e
  · unfold opsOpening
    split
    · split <;> simp [List.filter]
    · simp

theorem opsConnects_length (hasV : String → Bool) (e : Element) :
    (opsConnects hasV e).length =
      if doorWithTwoResolvableConnects hasV e then 2 else 0 := by
  rw [show (opsConnects hasV e).length =
      ((opsConnects hasV e).filter (fun op => op.2.1 = "CONNECTS_TO")).length from ?_]
  · exact opsConnects_count hasV e
  · unfold opsConnects
    split
    · split <;> simp [List.filter]
    · simp

theorem elementOps_filter_partOf (hasV : String → Bool) (e : Element) :
    ((elementOps hasV e).filter (fun op => op.2.1 = "PART_OF")).length =
      if hasResolvableParent hasV e then 1 else 0 := by
  unfold elementOps
  rw [List.filter_append, List.filter_append, List.length_append, List.length_append,
    opsOpening_no_other hasV e _ (by decide), opsConnects_no_other hasV e _ (by decide),
    opsPartOf_count]
  simp

theorem elementOps_filter_contains (hasV : String → Bool) (e : Element) :
    ((elementOps hasV e).filter (fun op => op.2.1 = "CONTAINS")).length =
      if hasResolvableParent hasV e then 1 else 0 := by
  unfold elementOps
  rw [List.filter_append, List.filter_append, List.length_append, List.length_append,
    opsOpening_no_other hasV e _ (by decide), opsConnects_no_other hasV e _ (by decide),
    opsPartOf_count_contains]
  simp

theorem elementOps_filter_opening (hasV : String → Bool) (e : Element) :
    ((elementOps hasV e).filter (fun op => op.2.1 = "HAS_OPENING")).length =
      if openingWithResolvableParent hasV e then 1 else 0 := by
  unfold elementOps
  rw [List.filter_append, List.filter_append, List.length_append, List.length_append,
    opsPartOf_no_other hasV e _ (by decide), opsConnects_no_other hasV e _ (by decide),
    opsOpening_count]
  simp

theorem elementOps_filter_connects (hasV : String → Bool) (e : Element) :
    ((elementOps hasV e).filter (fun op => op.2.1 = "CONNECTS_TO")).length =
      if doorWithTwoResolvableConnects hasV e then 2 else 0 := by
  unfold elementOps
  rw [List.filter_append, List.filter_append, List.length_append, List.length_append,
    opsPartOf_no_other hasV e _ (by decide), opsOpening_no_other hasV e _ (by decide),
    opsConnects_count]
  simp

theorem elementOps_length (hasV : String → Bool) (e : Element) :
    (elementOps hasV e).length =
      (if hasResolvableParent hasV e then 2 else 0) +
        (if openingWithResolvableParent hasV e then 1 else 0) +
        (if doorWithTwoResolvableConnects hasV e then 2 else 0) := by
  unfold elementOps
  rw [List.length_append, List.length_append,
    opsPartOf_length, opsOpening_length, opsConnects_length]

/-- Does `id` resolve to an ingested element, i.e. to a vertex of the
store built by phase 1 of `build_graph_from_data` from the empty store? -/
def resolvesToElement (elements : List Element) : String → Bool :=
  fun id => elements.any (fun e => id = e.id)

/-- C3: for every valid element set, ingest followed by derivation from an
empty store issues exactly `1 × #{elements with a resolvable parent}`
PART_OF upserts and the same number of CONTAINS upserts (2× combined),
`1 × #{Door/Window elements with a resolvable parent}` HAS_OPENING
upserts, and `2 × #{Door elements whose two connects targets both
resolve}` CONNECTS_TO upserts; the edge count reported by
`build_graph_from_data` is exactly their total. -/
theorem build_graph_edge_counts (elements : List Element)
    (_hvalid : validateElements elements = .ok elements) :
    ((buildEdgeOps {} elements).filter (fun op => op.2.1 = "PART_OF")).length =
        (elements.filter (hasResolvableParent (resolvesToElement elements))).length ∧
    ((buildEdgeOps {} elements).filter (fun op => op.2.1 = "CONTAINS")).length =
        (elements.filter (hasResolvableParent (resolvesToElement elements))).length ∧
    ((buildEdgeOps {} elements).filter (fun op => op.2.1 = "HAS_OPENING")).length =
        (elements.filter
          (openingWithResolvableParent (resolvesToElement elements))).length ∧
    ((buildEdgeOps {} elements).filter (fun op => op.2.1 = "CONNECTS_TO")).length =
        2 * (elements.filter
          (doorWithTwoResolvableConnects (resolvesToElement elements))).length ∧
    (build_graph_from_data {} elements).2.2 =
      2 * (elements.filter (hasResolvableParent (resolvesToElement elements))).length +
        (elements.filter
          (openingWithResolvableParent (resolvesToElement elements))).length +
        2 * (elements.filter
          (doorWithTwoResolvableConnects (resolvesToElement elements))).length := by
  have hhv : hasVertex (elements.foldl upsert_vertex {}) = resolvesToElement elements := by
    funext id
    rw [hasVertex_built]
    rfl
  have hops : buildEdgeOps {} elements =
      elements.flatMap (elementOps (resolvesToElement elements)) := by
    unfold buildEdgeOps
    rw [hhv]
  refine ⟨?_, ?_, ?_, ?_, ?_⟩
  · rw [hops,
      flatMap_filter_count _ _ _ (elementOps_filter_partOf (resolvesToElement elements)),
      sum_ite_count]
    omega
  · rw [hops,
      flatMap_filter_count _ _ _ (elementOps_filter_contains (resolvesToElement elements)),
      sum_ite_count]
    omega
  · rw [hops,
      flatMap_filter_count _ _ _ (elementOps_filter_opening (resolvesToElement elements)),
      sum_ite_count]
    omega
  · rw [hops,
      flatMap_filter_count _ _ _ (elementOps_filter_connects (resolvesToElement elements)),
      sum_ite_count]
  · rw [build_edge_count, hops,
      flatMap_length _ _ (elementOps_length (resolvesToElement elements)),
      sum_map_add3, sum_ite_count, sum_ite_count, sum_ite_count]
    omega

/-- The four-element scenario of spec §8: a floor, a room on it, a detached
room, and a door in the first room connecting the two rooms. -/
def scenarioElements : List Element :=
  [{ id := "floor_1", type := "Floor", name := "F1" },
   { id := "room_1", type := "Room", name := "R1", parent_id := some "floor_1" },
   { id := "room_2", type := "Room", name := "R2" },
   { id := "door_1", type := "Door", name := "D1", parent_id := some "room_1",
     connects := some ["room_1", "room_2"] }]

/-- C3 (witness): on the §8 scenario set (2 resolvable parents, 1 opening,
1 fully-resolvable door) the derivation issues 2+2 hierarchy upserts, 1
HAS_OPENING and 2 CONNECTS_TO, and reports 7 edges. -/
theorem build_graph_edge_counts_witness :
    validateElements scenarioElements = .ok scenarioElements ∧
    (build_graph_from_data {} scenarioElements).2.2 =
      2 * (scenarioElements.filter
            (hasResolvableParent (resolvesToElement scenarioElements))).length +
        (scenarioElements.filter
          (openingWithResolvableParent (resolvesToElement scenarioElements))).length +
        2 * (scenarioElements.filter
          (doorWithTwoResolvableConnects (resolvesToElement scenarioElements))).length :=
  ⟨by rfl, (build_graph_edge_counts scenarioElements (by rfl)).2.2.2.2⟩

/-! ## C8: derivation never fails, unresolvable endpoints are skipped -/

theorem mem_hasVertex_foldl (elements : List Element) (s : Store) (e : Element)
    (he : e ∈ elements) :
    hasVertex (elements.foldl upsert_vertex s) e.id = true := by
  rw [hasVertex_foldl_upsert, Bool.or_eq_true, List.any_eq_true]
  exact Or.inr ⟨e, he, by simp⟩

theorem elementOps_endpoints (hasV : String → Bool) (e : Element)
    (hself : hasV e.id = true) (op : EdgeOp) (hop : op ∈ elementOps hasV e) :
    hasV op.1 = true ∧ hasV op.2.2 = true := by
  unfold elementOps at hop
  rw [List.mem_append, List.mem_append] at hop
  rcases hop with (h | h) | h
  · unfold opsPartOf at h
    split at h
    next pid hpid =>
      split at h
      next hg =>
        simp only [List.mem_cons, List.mem_singleton, List.not_mem_nil, or_false] at h
        rcases h with rfl | rfl
        · exact ⟨hself, hg.2⟩
        · exact ⟨hg.2, hself⟩
      next => cases h
    next => cases h
  · unfold opsOpening at h
    split at h
    next pid hpid =>
      split at h
      next hg =>
        rw [List.mem_singleton] at h
        subst h
        exact ⟨hg.2.2, hself⟩
      next => cases h
    next => cases h
  · unfold opsConnects at h
    split at h
    next r1 r2 hconn =>
      split at h
      next hg =>
        simp only [List.mem_cons, List.mem_singleton, List.not_mem_nil, or_false] at h
        rcases h with rfl | rfl
        · exact ⟨hg.2.1, hg.2.2⟩
        · exact ⟨hg.2.2, hg.2.1⟩
      next => cases h
    next => cases h

/-- C8: relationship derivation never fails.  First, every `upsert_edge`
call issued by `build_graph_from_data` references only endpoints that
exist as vertices in the store (so no edge creation can fail on a missing
vertex).  Second, whenever a referenced endpoint does not resolve, the
corresponding rule is a silent no-op: an element whose parent is missing
contributes no PART_OF/CONTAINS and no HAS_OPENING upsert, and a door one
of whose connect targets is missing contributes no CONNECTS_TO upsert. -/
theorem derivation_never_fails :
    (∀ (s : Store) (elements : List Element), ∀ op ∈ buildEdgeOps s elements,
      hasVertex (elements.foldl upsert_vertex s) op.1 = true ∧
        hasVertex (elements.foldl upsert_vertex s) op.2.2 = true) ∧
    (∀ (hasV : String → Bool) (e : Element) (pid : String),
      e.parent_id = some pid → hasV pid = false →
        opsPartOf hasV e = [] ∧ opsOpening hasV e = []) ∧
    (∀ (hasV : String → Bool) (e : Element) (r1 r2 : String),
      e.connects = some [r1, r2] → hasV r1 = false ∨ hasV r2 = false →
        opsConnects hasV e = []) := by
  refine ⟨?_, ?_, ?_⟩
  · intro s elements op hop
    unfold buildEdgeOps at hop
    rw [List.mem_flatMap] at hop
    obtain ⟨e, he, hop⟩ := hop
    exact elementOps_endpoints _ e (mem_hasVertex_foldl elements s e he) op hop
  · intro hasV e pid hpid hmiss
    constructor
    · unfold opsPartOf
      rw [hpid]
      dsimp only
      rw [if_neg]
      rintro ⟨-, hv⟩
      rw [hmiss] at hv
      cases hv
    · unfold opsOpening
      rw [hpid]
      dsimp only
      rw [if_neg]
      rintro ⟨-, -, hv⟩
      rw [hmiss] at hv
      cases hv
  · intro hasV e r1 r2 hconn hmiss
    unfold opsConnects
    rw [hconn]
    dsimp only
    rw [if_neg]
    rintro ⟨-, hv1, hv2⟩
    rcases hmiss with h | h
    · rw [h] at hv1
      cases hv1
    · rw [h] at hv2
      cases hv2

/-- C8 (witness): a door whose parent `"p"` resolves to no vertex at all
contributes no hierarchy and no opening upserts. -/
theorem derivation_never_fails_witness :
    ({ id := "d", type := "Door", name := "d", parent_id := some "p" } : Element).parent_id
        = some "p" ∧
    (fun (_ : String) => false) "p" = false ∧
    (opsPartOf (fun _ => false)
        { id := "d", type := "Door", name := "d", parent_id := some "p" } = [] ∧
      opsOpening (fun _ => false)
        { id := "d", type := "Door", name := "d", parent_id := some "p" } = []) :=
  ⟨rfl, rfl, derivation_never_fails.2.1 (fun _ => false)
    { id := "d", type := "Door", name := "d", parent_id := some "p" } "p" rfl rfl⟩

/-! ## C9: element statistics -/

/-- The documented element types (`models.py`): Project, Site, Building,
Floor, Room, Door, Window. -/
def elementTypeEnum : List String :=
  ["Project", "Site", "Building", "Floor", "Room", "Door", "Window"]

theorem statsFold_general (ds : List Element) (a b c d t : Int)
    (htypes : ∀ e ∈ ds, e.type ∈ elementTypeEnum) :
    ds.foldl statsStep
        [("Floor", a), ("Room", b), ("Door", c), ("Window", d),
          ("total_area_sqm", t)] =
      [("Floor", a + ((ds.filter (fun e => e.type = "Floor")).length : Int)),
       ("Room", b + ((ds.filter (fun e => e.type = "Room")).length : Int)),
       ("Door", c + ((ds.filter (fun e => e.type = "Door")).length : Int)),
       ("Window", d + ((ds.filter (fun e => e.type = "Window")).length : Int)),
       ("total_area_sqm",
         t + ((ds.filter (fun e => e.type = "Floor")).map getAreaSqm).sum)] := by
  induction ds generalizing a b c d t with
  | nil => simp
  | cons e rest ih =>
    have he : e.type ∈ elementTypeEnum := htypes e (List.mem_cons_self _ _)
    have hrest : ∀ x ∈ rest, x.type ∈ elementTypeEnum :=
      fun x hx => htypes x (List.mem_cons_of_mem _ hx)
    simp only [List.foldl_cons]
    simp only [elementTypeEnum, List.mem_cons, List.not_mem_nil, or_false] at he
    rcases he with htype | htype | htype | htype | htype | htype | htype
    case inl | inr.inl | inr.inr.inl =>
      -- Project, Site, Building: not counted, not a Floor
      rw [show statsStep
          [("Floor", a), ("Room", b), ("Door", c), ("Window", d),
            ("total_area_sqm", t)] e =
          [("Floor", a), ("Room", b), ("Door", c), ("Window", d),
            ("total_area_sqm", t)] from by simp [statsStep, bumpBy, htype]]
      rw [ih _ _ _ _ _ hrest]
      simp [List.filter_cons, htype]
    case inr.inr.inr.inl =>
      -- Floor: bump the Floor slot and the area total
      rw [show statsStep
          [("Floor", a), ("Room", b), ("Door", c), ("Window", d),
            ("total_area_sqm", t)] e =
          [("Floor", a + 1), ("Room", b), ("Door", c), ("Window", d),
            ("total_area_sqm", t + getAreaSqm e)] from by
        simp [statsStep, bumpBy, htype]]
      rw [ih _ _ _ _ _ hrest]
      simp only [List.filter_cons, htype]
      simp
      try push_cast
      try omega
    case inr.inr.inr.inr.inl =>
      -- Room
      rw [show statsStep
          [("Floor", a), ("Room", b), ("Door", c), ("Window", d),
            ("total_area_sqm", t)] e =
          [("Floor", a), ("Room", b + 1), ("Door", c), ("Window", d),
            ("total_area_sqm", t)] from by simp [statsStep, bumpBy, htype]]
      rw [ih _ _ _ _ _ hrest]
      simp only [List.filter_cons, htype]
      simp
      try push_cast
      try omega
    case inr.inr.inr.inr.inr.inl =>
      -- Door
      rw [show statsStep
          [("Floor", a), ("Room", b), ("Door", c), ("Window", d),
            ("total_area_sqm", t)] e =
          [("Floor", a), ("Room", b), ("Door", c + 1), ("Window", d),
            ("total_area_sqm", t)] from by simp [statsStep, bumpBy, htype]]
      rw [ih _ _ _ _ _ hrest]
      simp only [List.filter_cons, htype]
      simp
      try push_cast
      try omega
    case inr.inr.inr.inr.inr.inr =>
      -- Window
      rw [show statsStep
          [("Floor", a), ("Room", b), ("Door", c), ("Window", d),
            ("total_area_sqm", t)] e =
          [("Floor", a), ("Room", b), ("Door", c), ("Window", d + 1),
            ("total_area_sqm", t)] from by simp [statsStep, bumpBy, htype]]
      rw [ih _ _ _ _ _ hrest]
      simp only [List.filter_cons, htype]
      simp
      try push_cast
      try omega

/-- C9: over descendants whose types are among the documented element
types (and whose Floor `area_sqm` values are numeric or absent, so the
Python accumulation is defined), `get_element_statistics`'s fold produces
per-type counts restricted to Floor, Room, Door and Window — the other
documented types are ignored — plus the sum of `properties.area_sqm` taken
only from Floor elements, with missing values defaulting to 0. -/
theorem element_statistics_spec (ds : List Element)
    (htypes : ∀ e ∈ ds, e.type ∈ elementTypeEnum)
    (_harea : ∀ e ∈ ds, e.type = "Floor" → areaNumericOk e) :
    statsFold ds =
      [("Floor", ((ds.filter (fun e => e.type = "Floor")).length : Int)),
       ("Room", ((ds.filter (fun e => e.type = "Room")).length : Int)),
       ("Door", ((ds.filter (fun e => e.type = "Door")).length : Int)),
       ("Window", ((ds.filter (fun e => e.type = "Window")).length : Int)),
       ("total_area_sqm",
         ((ds.filter (fun e => e.type = "Floor")).map getAreaSqm).sum)] := by
  unfold statsFold initStats
  rw [statsFold_general ds 0 0 0 0 0 htypes]
  simp

/-- The descendants list of the §8 statistics scenario:
`[Floor{area_sqm:100}, Floor{area_sqm:150}, Room, Room, Door, Window]`. -/
def statsScenario : List Element :=
  [{ id := "f1", type := "Floor", name := "f1", properties := [("area_sqm", .num 100)] },
   { id := "f2", type := "Floor", name := "f2", properties := [("area_sqm", .num 150)] },
   room "r1", room "r2",
   { id := "d1", type := "Door", name := "d1" },
   { id := "w1", type := "Window", name := "w1" }]

/-- C9 (witness): on the scenario descendants, the statistics are
`{Floor: 2, Room: 2, Door: 1, Window: 1, total_area_sqm: 250}`. -/
theorem element_statistics_spec_witness :
    (∀ e ∈ statsScenario, e.type ∈ elementTypeEnum) ∧
    (∀ e ∈ statsScenario, e.type = "Floor" → areaNumericOk e) ∧
    statsFold statsScenario =
      [("Floor", 2), ("Room", 2), ("Door", 1), ("Window", 1),
       ("total_area_sqm", 250)] :=
  ⟨by decide, by decide,
    (element_statistics_spec statsScenario (by decide) (by decide)).trans (by decide)⟩

/-! ## C7: `get_ancestors` under the faithful AQL traversal semantics -/

/-- A floor vertex with the given id. -/
def flr (i : String) : Element := { id := i, type := "Floor", name := i }

/-- Sanity check of the traversal model: on the pure `PART_OF` chain
`a → b → c` the query returns exactly the ancestor chain, nearest
first. -/
theorem get_ancestors_chain_value :
    get_ancestors storeParents "a" = [room "b", room "c"] := by decide

/-- A room `r1` with no parent, joined by six `CONNECTS_TO` door edges to
rooms `r2`–`r7`, each of which is `PART_OF` its own floor `f2`–`f7`. -/
def detourStore : Store :=
  { vertices := [room "r1", room "r2", room "r3", room "r4", room "r5",
                 room "r6", room "r7", flr "f2", flr "f3", flr "f4",
                 flr "f5", flr "f6", flr "f7"]
    edges := [
      { _key := "c2", fromKey := "r1", toKey := "r2", relationship := "CONNECTS_TO" },
      { _key := "c3", fromKey := "r1", toKey := "r3", relationship := "CONNECTS_TO" },
      { _key := "c4", fromKey := "r1", toKey := "r4", relationship := "CONNECTS_TO" },
      { _key := "c5", fromKey := "r1", toKey := "r5", relationship := "CONNECTS_TO" },
      { _key := "c6", fromKey := "r1", toKey := "r6", relationship := "CONNECTS_TO" },
      { _key := "c7", fromKey := "r1", toKey := "r7", relationship := "CONNECTS_TO" },
      { _key := "p2", fromKey := "r2", toKey := "f2", relationship := "PART_OF" },
      { _key := "p3", fromKey := "r3", toKey := "f3", relationship := "PART_OF" },
      { _key := "p4", fromKey := "r4", toKey := "f4", relationship := "PART_OF" },
      { _key := "p5", fromKey := "r5", toKey := "f5", relationship := "PART_OF" },
      { _key := "p6", fromKey := "r6", toKey := "f6", relationship := "PART_OF" },
      { _key := "p7", fromKey := "r7", toKey := "f7", relationship := "PART_OF" }] }

/-- C7: the claim describes the intended behavior (and the function's own
docstring, "all ancestors up to root"), but the code is wrong.  The AQL
relationship filter applies only to the LAST edge of each emitted path
while the traversal walks ALL outbound edges, so on the room `r1` — which
has no outbound `PART_OF` edge and is therefore a root — `get_ancestors`
walks the six door edges and then the floors' `PART_OF` edges and returns
the six floors `f2`–`f7`: six non-ancestor elements, more than 5 of them,
and a non-empty result for a `PART_OF`-root. -/
theorem get_ancestors_filter_bug :
    partOfNeighbors detourStore "r1" = [] ∧
    (get_ancestors detourStore "r1").length = 6 ∧
    get_ancestors detourStore "r1" ≠ [] ∧
    (get_ancestors detourStore "r1").map Element.id =
      ["f2", "f3", "f4", "f5", "f6", "f7"] := by
  refine ⟨by decide, by decide, by decide, by decide⟩

/-! ## C6: `find_path` breadth-first search returns a shortest path

The BFS queue holds reversed paths (current vertex first, `from_id` last).
`IsForwardPath s a b q` says `q` is a walk from `a` to `b` over the
undirected adjacency used by the query (`anyNeighbors`). -/

/-- `v` is reachable from `u` in one hop of the ANY-direction traversal. -/
def Adjacent (s : Store) (u v : String) : Prop := v ∈ anyNeighbors s u

/-- `q` is a walk from `a` to `b` (vertex sequence, consecutive vertices
adjacent in either edge direction). -/
def IsForwardPath (s : Store) (a b : String) (q : List String) : Prop :=
  q.head? = some a ∧ q.getLast? = some b ∧ q.Chain' (Adjacent s)

/-- The invariant of the `find_path` BFS loop state: every queued reversed
path is a walk from the start whose vertices end at its visited head,
queue lengths are nondecreasing and spread over at most two consecutive
values, every visited vertex is either still a queue head or fully
expanded, and every queued path is a shortest walk to its head. -/
structure BfsInv (s : Store) (start : String)
    (Q : List (List String)) (V : Finset String) : Prop where
  nonempty : ∀ p ∈ Q, p ≠ []
  valid : ∀ p ∈ Q, p.getLast? = some start ∧ p.Chain' (fun a b => Adjacent s b a)
  headsV : ∀ p ∈ Q, ∀ h, p.head? = some h → h ∈ V
  startV : start ∈ V
  lengths : Q.Pairwise (fun p q => p.length ≤ q.length ∧ q.length ≤ p.length + 1)
  covered : ∀ v ∈ V,
    (∃ p ∈ Q, p.head? = some v) ∨ (∀ n ∈ anyNeighbors s v, n ∈ V)
  minimal : ∀ p ∈ Q, ∀ h, p.head? = some h →
    ∀ q, IsForwardPath s start h q → p.length ≤ q.length

theorem revpath_forward (s : Store) (start h : String) (p : List String)
    (hlast : p.getLast? = some start)
    (hchain : p.Chain' (fun a b => Adjacent s b a)) (hhead : p.head? = some h) :
    IsForwardPath s start h p.reverse := by
  refine ⟨?_, ?_, ?_⟩
  · rw [List.head?_reverse]
    exact hlast
  · rw [List.getLast?_reverse]
    exact hhead
  · rw [List.chain'_reverse]
    exact hchain

/-- Any walk from the start to a vertex outside the visited set is
strictly longer than some still-queued path: walking from the start
(visited) towards an unvisited target must pass a vertex that is still a
queue head, and queued paths to their heads are shortest. -/
theorem bfs_frontier (s : Store) (start : String) (Q : List (List String))
    (V : Finset String) (inv : BfsInv s start Q V) :
    ∀ (r : List String) (t : String), r.getLast? = some start →
      r.Chain' (fun a b => Adjacent s b a) → r.head? = some t → t ∉ V →
      ∃ p ∈ Q, p.length < r.length := by
  intro r
  induction r with
  | nil => intro t _ _ hh _; cases hh
  | cons t' r₂ ih =>
    intro t hlast hchain hh ht
    rw [List.head?_cons, Option.some_inj] at hh
    subst hh
    match r₂, hlast, hchain with
    | [], hlast, _ =>
      rw [show ([t'].getLast? : Option String) = some t' from rfl,
        Option.some_inj] at hlast
      exact absurd (hlast ▸ inv.startV) ht
    | m :: r₃, hlast, hchain =>
      rw [List.getLast?_cons_cons] at hlast
      rw [List.chain'_cons] at hchain
      obtain ⟨hadj, hchain₂⟩ := hchain
      by_cases hm : m ∈ V
      · rcases inv.covered m hm with ⟨p, hp, hphead⟩ | hfull
        · have hval := inv.valid p hp
          have hmin := inv.minimal p hp m hphead ((m :: r₃).reverse)
            (revpath_forward s start m (m :: r₃) hlast hchain₂ rfl)
          rw [List.length_reverse] at hmin
          exact ⟨p, hp, by simpa using Nat.lt_succ_of_le hmin⟩
        · exact absurd (hfull t' hadj) ht
      · obtain ⟨p, hp, hlt⟩ := ih m hlast hchain₂ rfl hm
        exact ⟨p, hp, by simpa using Nat.lt_succ_of_lt hlt⟩

/-- The effect of one full neighbor expansion of the BFS: some sublist
`fresh` of the neighbor list (its not-yet-visited keys, deduplicated) is
appended to the queue as one-step extensions, and marked visited. -/
theorem bfsExpand_spec (ns : List String) (path : List String)
    (Q₀ : List (List String)) (V₀ : Finset String) :
    ∃ fresh : List String,
      bfsExpand path ns (Q₀, V₀) =
        (Q₀ ++ fresh.map (fun n => n :: path), V₀ ∪ fresh.toFinset) ∧
      (∀ n ∈ fresh, n ∈ ns ∧ n ∉ V₀) ∧
      (∀ n ∈ ns, n ∈ V₀ ∪ fresh.toFinset) ∧
      fresh.Nodup := by
  induction ns generalizing Q₀ V₀ with
  | nil => exact ⟨[], by simp [bfsExpand], by simp, by simp, List.nodup_nil⟩
  | cons n rest ih =>
    by_cases hn : n ∈ V₀
    · obtain ⟨fresh, heq, hfresh, hcover, hnodup⟩ := ih Q₀ V₀
      refine ⟨fresh, ?_, ?_, ?_, hnodup⟩
      · rw [← heq]
        simp [bfsExpand, hn]
      · exact fun x hx => ⟨List.mem_cons_of_mem _ (hfresh x hx).1, (hfresh x hx).2⟩
      · intro x hx
        rcases List.mem_cons.mp hx with rfl | hx
        · exact Finset.mem_union_left _ hn
        · exact hcover x hx
    · obtain ⟨fresh, heq, hfresh, hcover, hnodup⟩ :=
        ih (Q₀ ++ [n :: path]) (insert n V₀)
      refine ⟨n :: fresh, ?_, ?_, ?_, ?_⟩
      · rw [show bfsExpand path (n :: rest) (Q₀, V₀) =
            bfsExpand path rest (Q₀ ++ [n :: path], insert n V₀) from by
          simp [bfsExpand, hn]]
        rw [heq]
        simp only [Prod.mk.injEq]
        constructor
        · simp
        · ext x
          simp [Finset.mem_union, Finset.mem_insert, or_assoc]
      · intro x hx
        rcases List.mem_cons.mp hx with rfl | hx
        · exact ⟨List.mem_cons_self _ _, hn⟩
        · refine ⟨List.mem_cons_of_mem _ (hfresh x hx).1, ?_⟩
          intro hxv
          exact (hfresh x hx).2 (Finset.mem_insert_of_mem hxv)
      · intro x hx
        rcases List.mem_cons.mp hx with rfl | hx
        · simp
        · have := hcover x hx
          rw [Finset.mem_union, Finset.mem_insert] at this
          rcases this with (rfl | hv) | hf
          · simp
          · exact Finset.mem_union_left _ hv
          · rw [Finset.mem_union]
            right
            simp only [List.toFinset_cons, Finset.mem_insert]
            exact Or.inr hf
      · refine List.nodup_cons.mpr ⟨?_, hnodup⟩
        intro hmem
        exact (hfresh n hmem).2 (Finset.mem_insert_self _ _)

/-- One BFS iteration preserves the loop invariant: popping the front
path `p` (whose head `c` is not the target) and expanding its
not-yet-visited neighbors keeps all seven invariant clauses. -/
theorem bfsInv_step (s : Store) (start c : String) (p : List String)
    (rest : List (List String)) (V : Finset String)
    (inv : BfsInv s start (p :: rest) V) (hc : p.head? = some c) :
    BfsInv s start (bfsExpand p (anyNeighbors s c) (rest, V)).1
      (bfsExpand p (anyNeighbors s c) (rest, V)).2 := by
  obtain ⟨fresh, heq, hfresh, hcover, hnodup⟩ :=
    bfsExpand_spec (anyNeighbors s c) p rest V
  obtain ⟨ptail, rfl⟩ : ∃ l, p = c :: l := by
    match p, hc with
    | x :: l, hc =>
      rw [List.head?_cons, Option.some_inj] at hc
      exact ⟨l, by rw [hc]⟩
  rw [heq]
  have hmemQ : ∀ q ∈ rest ++ fresh.map (fun n => n :: c :: ptail),
      q ∈ rest ∨ ∃ n ∈ fresh, q = n :: c :: ptail := by
    intro q hq
    rcases List.mem_append.mp hq with hq | hq
    · exact Or.inl hq
    · obtain ⟨n, hn, rfl⟩ := List.mem_map.mp hq
      exact Or.inr ⟨n, hn, rfl⟩
  have hvalid := inv.valid _ (List.mem_cons_self (c :: ptail) rest)
  have hfrontLen : ∀ q ∈ rest, (c :: ptail).length ≤ q.length ∧
      q.length ≤ (c :: ptail).length + 1 :=
    (List.pairwise_cons.mp inv.lengths).1
  refine ⟨?_, ?_, ?_, ?_, ?_, ?_, ?_⟩
  · intro q hq
    rcases hmemQ q hq with hq | ⟨n, hn, rfl⟩
    · exact inv.nonempty q (List.mem_cons_of_mem _ hq)
    · exact List.cons_ne_nil _ _
  · intro q hq
    rcases hmemQ q hq with hq | ⟨n, hn, rfl⟩
    · exact inv.valid q (List.mem_cons_of_mem _ hq)
    · refine ⟨by rw [List.getLast?_cons_cons]; exact hvalid.1, ?_⟩
      rw [List.chain'_cons]
      exact ⟨(hfresh n hn).1, hvalid.2⟩
  · intro q hq h hh
    rcases hmemQ q hq with hq | ⟨n, hn, rfl⟩
    · exact Finset.mem_union_left _ (inv.headsV q (List.mem_cons_of_mem _ hq) h hh)
    · rw [List.head?_cons, Option.some_inj] at hh
      subst hh
      rw [Finset.mem_union]
      right
      rw [List.mem_toFinset]
      exact hn
  · exact Finset.mem_union_left _ inv.startV
  · rw [List.pairwise_append]
    refine ⟨(List.pairwise_cons.mp inv.lengths).2, ?_, ?_⟩
    · rw [List.pairwise_map]
      refine List.Pairwise.imp ?_ hnodup
      intro a b _
      simp only [List.length_cons]
      omega
    · intro q hq nb hnb
      obtain ⟨n, hn, rfl⟩ := List.mem_map.mp hnb
      have := hfrontLen q hq
      simp only [List.length_cons] at this ⊢
      omega
  · intro v hv
    rw [Finset.mem_union] at hv
    rcases hv with hv | hv
    · rcases inv.covered v hv with ⟨q, hq, hqh⟩ | hfull
      · rcases List.mem_cons.mp hq with rfl | hq
        · rw [List.head?_cons, Option.some_inj] at hqh
          subst hqh
          exact Or.inr fun n hn => hcover n hn
        · exact Or.inl ⟨q, List.mem_append_left _ hq, hqh⟩
      · exact Or.inr fun n hn => Finset.mem_union_left _ (hfull n hn)
    · rw [List.mem_toFinset] at hv
      exact Or.inl ⟨v :: c :: ptail,
        List.mem_append_right _ (List.mem_map.mpr ⟨v, hv, rfl⟩),
        List.head?_cons⟩
  · intro q hq h hh fq hfq
    rcases hmemQ q hq with hq | ⟨n, hn, rfl⟩
    · exact inv.minimal q (List.mem_cons_of_mem _ hq) h hh fq hfq
    · rw [List.head?_cons, Option.some_inj] at hh
      subst hh
      obtain ⟨hfq1, hfq2, hfq3⟩ := hfq
      have hrev : (fq.reverse).getLast? = some start ∧
          (fq.reverse).Chain' (fun a b => Adjacent s b a) ∧
          (fq.reverse).head? = some n := by
        refine ⟨by rw [List.getLast?_reverse]; exact hfq1, ?_,
          by rw [List.head?_reverse]; exact hfq2⟩
        rw [List.chain'_reverse]
        exact hfq3
      obtain ⟨p', hp', hlt⟩ := bfs_frontier s start ((c :: ptail) :: rest) V inv
        fq.reverse n hrev.1 hrev.2.1 hrev.2.2 (hfresh n hn).2
      have hfront : (c :: ptail).length ≤ p'.length := by
        rcases List.mem_cons.mp hp' with rfl | hp'
        · exact le_refl _
        · exact (hfrontLen p' hp').1
      rw [List.length_reverse] at hlt
      simp only [List.length_cons] at *
      omega

theorem bfsInv_init (s : Store) (start : String) :
    BfsInv s start [[start]] {start} := by
  refine ⟨?_, ?_, ?_, ?_, ?_, ?_, ?_⟩
  · intro p hp
    rw [List.mem_singleton] at hp
    subst hp
    exact List.cons_ne_nil _ _
  · intro p hp
    rw [List.mem_singleton] at hp
    subst hp
    exact ⟨rfl, List.chain'_singleton _⟩
  · intro p hp h hh
    rw [List.mem_singleton] at hp
    subst hp
    rw [List.head?_cons, Option.some_inj] at hh
    subst hh
    exact Finset.mem_singleton_self _
  · exact Finset.mem_singleton_self _
  · exact List.pairwise_singleton _ _
  · intro v hv
    rw [Finset.mem_singleton] at hv
    subst hv
    exact Or.inl ⟨[v], List.mem_singleton_self _, rfl⟩
  · intro p hp h hh fq hfq
    rw [List.mem_singleton] at hp
    subst hp
    obtain ⟨hfq1, -, -⟩ := hfq
    match fq, hfq1 with
    | x :: l, _ => simp

/-- Any `some` result of the BFS loop run from an invariant-satisfying
state is either the no-path marker `[]` or a reversed walk from the start
to the target that no walk can beat in length. -/
theorem findPathLoop_spec (s : Store) (start to_id : String) :
    ∀ (fuel : Nat) (Q : List (List String)) (V : Finset String) (qc : Nat),
      BfsInv s start Q V → ∀ (rp : List String) (qr : Nat),
      findPathLoop s to_id fuel Q V qc = some (rp, qr) →
      rp = [] ∨
        (rp.getLast? = some start ∧ rp.head? = some to_id ∧
          rp.Chain' (fun a b => Adjacent s b a) ∧
          ∀ q, IsForwardPath s start to_id q → rp.length ≤ q.length) := by
  intro fuel
  induction fuel with
  | zero => intro Q V qc _ rp qr h; cases h
  | succ fuel ih =>
    intro Q V qc inv rp qr h
    match Q, h with
    | [], h =>
      rw [show findPathLoop s to_id (fuel + 1) [] V qc = some ([], qc) from rfl,
        Option.some_inj, Prod.mk.injEq] at h
      exact Or.inl h.1.symm
    | (p :: rest), h =>
      match p, h with
      | [], h =>
        exact absurd rfl (inv.nonempty [] (List.mem_cons_self _ _))
      | (c :: ptail), h =>
        by_cases hc : c = to_id
        · subst hc
          rw [show findPathLoop s c (fuel + 1) ((c :: ptail) :: rest) V qc =
              some (c :: ptail, qc) from by simp [findPathLoop],
            Option.some_inj, Prod.mk.injEq] at h
          obtain ⟨rfl, -⟩ := h
          right
          have hval := inv.valid _ (List.mem_cons_self (c :: ptail) rest)
          exact ⟨hval.1, List.head?_cons, hval.2,
            inv.minimal _ (List.mem_cons_self _ _) c List.head?_cons⟩
        · rw [show findPathLoop s to_id (fuel + 1) ((c :: ptail) :: rest) V qc =
              findPathLoop s to_id fuel
                (bfsExpand (c :: ptail) (anyNeighbors s c) (rest, V)).1
                (bfsExpand (c :: ptail) (anyNeighbors s c) (rest, V)).2
                (qc + 1) from by
            simp only [findPathLoop, if_neg hc]] at h
          exact ih _ _ (qc + 1)
            (bfsInv_step s start c (c :: ptail) rest V inv List.head?_cons) rp qr h

/-- C6: for distinct endpoints, `find_path` either returns the empty
sequence (the queue emptied with no path, not an error) or a walk from
`from_id` to `to_id` over undirected adjacency that is shortest by hop
count among all such walks — the BFS explores candidate paths in FIFO
order with a global visited set, so the first completed path is
shortest. -/
theorem find_path_shortest (s : Store) (a b : String) (_hne : a ≠ b) :
    (findPathIds s a b).1 = [] ∨
      (IsForwardPath s a b (findPathIds s a b).1 ∧
        ∀ q, IsForwardPath s a b q →
          (findPathIds s a b).1.length ≤ q.length) := by
  unfold findPathIds
  rcases hloop : findPathLoop s b (findPathFuel s) [[a]] {a} 0 with - | ⟨rp, qr⟩
  · exact Or.inl rfl
  · rcases findPathLoop_spec s a b (findPathFuel s) [[a]] {a} 0
        (bfsInv_init s a) rp qr hloop with hnil | ⟨hlast, hhead, hchain, hmin⟩
    · subst hnil
      exact Or.inl rfl
    · right
      simp only
      constructor
      · refine ⟨?_, ?_, ?_⟩
        · rw [List.head?_reverse]
          exact hlast
        · rw [List.getLast?_reverse]
          exact hhead
        · rw [List.chain'_reverse]
          exact hchain
      · intro q hq
        rw [List.length_reverse]
        exact hmin q hq

/-- The endpoint keys of all edges of the store. -/
def edgeEndpoints (s : Store) : Finset String :=
  s.edges.foldr (fun e acc => insert e.fromKey (insert e.toKey acc)) ∅

theorem mem_foldr_endpoints (v n : String) (l : List EdgeDoc)
    (hn : n ∈ l.filterMap (fun e =>
      if e.fromKey = v then some e.toKey
      else if e.toKey = v then some e.fromKey else none)) :
    n ∈ l.foldr (fun e acc => insert e.fromKey (insert e.toKey acc))
      (∅ : Finset String) := by
  induction l with
  | nil => cases hn
  | cons e rest ih =>
    simp only [List.foldr_cons, Finset.mem_insert]
    by_cases h1 : e.fromKey = v
    · rw [List.filterMap_cons_some (show _ = some e.toKey by simp [h1])] at hn
      rcases List.mem_cons.mp hn with rfl | hn
      · right; left; rfl
      · right; right; exact ih hn
    · by_cases h2 : e.toKey = v
      · rw [List.filterMap_cons_some (show _ = some e.fromKey by simp [h1, h2])] at hn
        rcases List.mem_cons.mp hn with rfl | hn
        · left; rfl
        · right; right; exact ih hn
      · rw [List.filterMap_cons_none (by simp [h1, h2])] at hn
        right; right; exact ih hn

theorem anyNeighbors_mem_endpoints (s : Store) (v n : String)
    (hn : n ∈ anyNeighbors s v) : n ∈ edgeEndpoints s :=
  mem_foldr_endpoints v n s.edges hn

theorem edgeEndpoints_card (s : Store) :
    (edgeEndpoints s).card ≤ 2 * s.edges.length := by
  unfold edgeEndpoints
  induction s.edges with
  | nil => simp
  | cons e rest ih =>
    simp only [List.foldr_cons, List.length_cons]
    calc (insert e.fromKey (insert e.toKey
            (rest.foldr (fun e acc => insert e.fromKey (insert e.toKey acc))
              (∅ : Finset String)))).card
        ≤ (insert e.toKey
            (rest.foldr (fun e acc => insert e.fromKey (insert e.toKey acc))
              (∅ : Finset String))).card + 1 :=
          Finset.card_insert_le _ _
      _ ≤ (rest.foldr (fun e acc => insert e.fromKey (insert e.toKey acc))
              (∅ : Finset String)).card + 1 + 1 :=
          Nat.add_le_add_right (Finset.card_insert_le _ _) 1
      _ ≤ 2 * (rest.length + 1) := by omega

/-- The BFS loop cannot exhaust its fuel: every iteration pops one path,
and paths are pushed only for freshly visited vertices, which all lie in
the finite set of edge endpoints. -/
theorem findPathLoop_terminates (s : Store) (to_id : String) (B : Finset String)
    (hB : ∀ v n, n ∈ anyNeighbors s v → n ∈ B) :
    ∀ (fuel : Nat) (Q : List (List String)) (V : Finset String) (qc : Nat),
      V ⊆ B → Q.length + (B.card - V.card) < fuel →
      findPathLoop s to_id fuel Q V qc ≠ none := by
  intro fuel
  induction fuel with
  | zero => intro Q V qc _ hm; omega
  | succ fuel ih =>
    intro Q V qc hVB hm
    match Q with
    | [] => simp [findPathLoop]
    | [] :: rest => simp [findPathLoop]
    | (c :: ptail) :: rest =>
      by_cases hc : c = to_id
      · subst hc
        simp [findPathLoop]
      · rw [show findPathLoop s to_id (fuel + 1) ((c :: ptail) :: rest) V qc =
            findPathLoop s to_id fuel
              (bfsExpand (c :: ptail) (anyNeighbors s c) (rest, V)).1
              (bfsExpand (c :: ptail) (anyNeighbors s c) (rest, V)).2
              (qc + 1) from by simp only [findPathLoop, if_neg hc]]
        obtain ⟨fresh, heq, hfresh, hcover, hnodup⟩ :=
          bfsExpand_spec (anyNeighbors s c) (c :: ptail) rest V
        rw [heq]
        have hdisj : Disjoint V fresh.toFinset := by
          rw [Finset.disjoint_right]
          intro x hx
          rw [List.mem_toFinset] at hx
          exact (hfresh x hx).2
        have hcard : (V ∪ fresh.toFinset).card = V.card + fresh.length := by
          rw [Finset.card_union_of_disjoint hdisj, List.toFinset_card_of_nodup hnodup]
        have hsub : V ∪ fresh.toFinset ⊆ B := by
          rw [Finset.union_subset_iff]
          refine ⟨hVB, ?_⟩
          intro x hx
          rw [List.mem_toFinset] at hx
          exact hB c x (hfresh x hx).1
        refine ih _ _ (qc + 1) hsub ?_
        have hle : (V ∪ fresh.toFinset).card ≤ B.card := Finset.card_le_card hsub
        simp only [List.length_append, List.length_map, List.length_cons] at hm ⊢
        omega

/-- With the fuel `findPathFuel`, the BFS loop always completes (returns a
`some` value), so `findPathIds` never hits the fuel-exhaustion fallback. -/
theorem findPath_fuel_sufficient (s : Store) (a to_id : String) :
    findPathLoop s to_id (findPathFuel s) [[a]] {a} 0 ≠ none := by
  refine findPathLoop_terminates s to_id (insert a (edgeEndpoints s)) ?_ _ _ _ _ ?_ ?_
  · intro v n hn
    exact Finset.mem_insert_of_mem (anyNeighbors_mem_endpoints s v n hn)
  · intro x hx
    rw [Finset.mem_singleton] at hx
    subst hx
    exact Finset.mem_insert_self _ _
  · have h1 : (insert a (edgeEndpoints s)).card ≤ (edgeEndpoints s).card + 1 :=
      Finset.card_insert_le _ _
    have h2 := edgeEndpoints_card s
    have h3 : ({a} : Finset String).card = 1 := Finset.card_singleton _
    unfold findPathFuel
    simp only [List.length_singleton, h3]
    omega

/-- C6 (non-vacuity check): on the three-room chain the BFS finds the
whole chain as the path. -/
theorem findPathIds_chain_value :
    findPathIds storeChain "a" "c" = (["a", "b", "c"], 2) := by decide

/-- C6 (witness): on the three-room chain store with distinct endpoints
`a`, `c`, the conclusion holds. -/
theorem find_path_shortest_witness :
    "a" ≠ "c" ∧
    ((findPathIds storeChain "a" "c").1 = [] ∨
      (IsForwardPath storeChain "a" "c" (findPathIds storeChain "a" "c").1 ∧
        ∀ q, IsForwardPath storeChain "a" "c" q →
          (findPathIds storeChain "a" "c").1.length ≤ q.length)) :=
  ⟨by decide, find_path_shortest storeChain "a" "c" (by decide)⟩

end BuildingGraph

